import Mathlib

/-!
Verification development for a KLV (Key-Length-Value) binary metadata decoder.

The decoder is embedded shallowly: the shared seekable byte source
(`std::io::Cursor` over a byte buffer in the source) becomes an explicit
`Cursor` value threaded through each operation; bytes are `Nat` values
below 256; fallible reads return an explicit result type.  Rust panics
(`panic!`, `expect`, `unwrap` on conversions) are modelled as a distinct
`PResult.panic` outcome so that "returns an error" and "aborts the
process" stay distinguishable.  Release-build semantics are modelled:
`debug_assert!` checks in the source are omitted.
-/

namespace KlvModel

/-- Seekable byte source with a current position, mirroring
`std::io::Cursor` over a byte buffer.  Positions may point past the end
of the data (Rust's `Cursor` permits seeking beyond the end). -/
structure Cursor where
  data : List Nat
  pos : Nat
deriving DecidableEq

/-- The distinct process-abort sites reachable in the decoder:
the `MSB set but N = 0` BER header check, the 128-bit overflow checks in
BER and BER-OID decoding, the u128-to-u64 conversion in `Klv::read_length`,
the `checked_sub` underflow branch in `UniversalSet::start_locations`,
and the u64-to-i64 conversion performed before `seek_relative`. -/
inductive PanicKind where
  | berZeroCount
  | berOverflow
  | berOidOverflow
  | lengthTooBig
  | negOffset
  | i64Convert
deriving DecidableEq

/-- The decoder's error type (`encoding::Error` in the source): a decoding
error naming the offending kind, or a propagated I/O error (the only I/O
error reachable on an in-memory cursor is end-of-stream). -/
inductive Error where
  | decodingError (kind : String)
  | ioError
deriving DecidableEq

/-- Outcome of running a decoder operation: a value, a returned error, or
a process abort (Rust panic). -/
inductive PResult (α : Type) where
  | ok (a : α)
  | err (e : Error)
  | panic (k : PanicKind)
deriving DecidableEq

/-- Read one byte at the current position and advance by one
(`byteorder::ReadBytesExt::read_u8`); `none` is end-of-stream. -/
def read_u8 (c : Cursor) : Option (Nat × Cursor) :=
  match c.data[c.pos]? with
  | some b => some (b, ⟨c.data, c.pos + 1⟩)
  | none => none

/-- Read exactly `n` bytes (`Read::read_exact` on a cursor): on success the
position advances by `n`; on failure no bytes are consumed (the cursor
specialisation of `read_exact` checks the remaining slice first). -/
def read_bytes (c : Cursor) : Nat → Option (List Nat × Cursor)
  | 0 => some ([], c)
  | n + 1 =>
    match read_u8 c with
    | none => none
    | some (b, c1) =>
      match read_bytes c1 n with
      | none => none
      | some (bs, c2) => some (b :: bs, c2)

/-- Read `n` bytes one `read_u8` at a time (the byte-collection loop in the
9–16-byte integer branches): on failure the cursor keeps the bytes already
consumed. -/
def read_bytes_track (c : Cursor) : Nat → Option (List Nat) × Cursor
  | 0 => (some [], c)
  | n + 1 =>
    match read_u8 c with
    | none => (none, c)
    | some (b, c1) =>
      match read_bytes_track c1 n with
      | (some bs, c2) => (some (b :: bs), c2)
      | (none, c2) => (none, c2)

/-- Big-endian value of a byte sequence. -/
def beValue (bs : List Nat) : Nat :=
  bs.foldl (fun a b => a * 256 + b) 0

/-- Big-endian value of the low 7-bit groups of a BER-OID byte sequence. -/
def oidValue (bs : List Nat) : Nat :=
  bs.foldl (fun a b => a * 128 + b % 128) 0

/-- The `n` bytes of the source starting at offset `s` (truncated at the
end of the source). -/
def slice (data : List Nat) (s n : Nat) : List Nat :=
  (data.drop s).take n

/-- The last `n` elements of a list. -/
def lastN (n : Nat) (l : List α) : List α :=
  l.drop (l.length - n)

/-- There is an occurrence of the 16-byte key at offset `p` of the source. -/
def occAt (data key : List Nat) (p : Nat) : Prop :=
  slice data p 16 = key

instance (data key : List Nat) (p : Nat) : Decidable (occAt data key p) := by
  unfold occAt; infer_instance

/-- Whether an outcome is the `checked_sub` underflow abort of
`UniversalSet::start_locations`. -/
def isNegOffset {α : Type} : PResult α → Bool
  | .panic .negOffset => true
  | _ => false

/-- Read a BER long-form value of `n` payload bytes (`read_ber_long_form`):
concatenate the bytes big-endian, strip leading zero bits, abort if more
than 128 significant bits remain (i.e. if the value is at least `2 ^ 128`). -/
def read_ber_long_form (c : Cursor) (n : Nat) : PResult (Nat × Cursor) :=
  match read_bytes c n with
  | none => .err .ioError
  | some (bs, c1) =>
    if beValue bs < 2 ^ 128 then .ok (beValue bs, c1) else .panic .berOverflow

/-- Read a BER value (`read_ber`): short form when the first byte's MSB is
clear; otherwise the low 7 bits give the payload byte count `n`, aborting
when `n = 0` (the `MSB in BER is 1 but all other bits are 0` panic). -/
def read_ber (c : Cursor) : PResult (Nat × Cursor) :=
  match read_u8 c with
  | none => .err .ioError
  | some (b, c1) =>
    if b < 128 then .ok (b, c1)
    else if b % 128 = 0 then .panic .berZeroCount
    else read_ber_long_form c1 (b % 128)

/-- One-byte-at-a-time accumulation loop of `read_ber_oid`, accumulating
the low 7 bits of each byte until a byte with clear MSB terminates.  The
`fuel` argument only bounds the recursion: each iteration advances the
position by one, so any fuel of at least `data.length + 1 - pos` makes the
fuel-exhausted branch unreachable (position would already be past the end,
where the loop returns the same end-of-stream error). -/
def read_ber_oid_loop : Nat → Cursor → Nat → PResult (Nat × Cursor)
  | 0, _, _ => .err .ioError
  | fuel + 1, c, acc =>
    match read_u8 c with
    | none => .err .ioError
    | some (b, c1) =>
      if b < 128 then .ok (acc * 128 + b % 128, c1)
      else read_ber_oid_loop fuel c1 (acc * 128 + b % 128)

/-- Read a BER-OID value (`read_ber_oid`): accumulate 7-bit groups until a
byte with clear MSB, return 0 when all groups are zero, abort when more
than 128 significant bits remain after stripping leading zeros (i.e. when
the value is at least `2 ^ 128`). -/
def read_ber_oid (c : Cursor) : PResult (Nat × Cursor) :=
  match read_ber_oid_loop (c.data.length + 1) c 0 with
  | .ok (v, c1) => if v < 2 ^ 128 then .ok (v, c1) else .panic .berOidOverflow
  | .err e => .err e
  | .panic k => .panic k

/-- Two's-complement interpretation of an unsigned `bits`-bit value. -/
def toSigned (v bits : Nat) : Int :=
  if v < 2 ^ (bits - 1) then (v : Int) else (v : Int) - 2 ^ bits

/-- Width-tagged signed integer result (`Integer` in the source). -/
inductive Integer where
  | i8 (v : Int)
  | i16 (v : Int)
  | i32 (v : Int)
  | i64 (v : Int)
  | i128 (v : Int)
deriving DecidableEq

/-- Width-tagged unsigned integer result (`UnsignedInteger` in the source). -/
inductive UnsignedInteger where
  | u8 (v : Nat)
  | u16 (v : Nat)
  | u32 (v : Nat)
  | u64 (v : Nat)
  | u128 (v : Nat)
deriving DecidableEq

/-- Read a fixed-width signed integer of a declared byte count
(`read_integer`).  Lengths 1–8 go through `byteorder`'s sign-extending
big-endian readers (which consume nothing on failure); lengths 9–16 read
byte by byte, then clear the original sign bit, left-pad with zero bits to
128 bits and set the sign bit at the new most-significant position, which
yields `u - 2 ^ (8 * len - 1) - 2 ^ 127` for a negative raw value `u`;
other lengths fail up front with a decoding error, consuming nothing. -/
def read_integer (c : Cursor) (len : Nat) : PResult Integer × Cursor :=
  if len = 1 then
    match read_bytes c 1 with
    | none => (.err .ioError, c)
    | some (bs, c1) => (.ok (.i8 (toSigned (beValue bs) 8)), c1)
  else if len = 2 then
    match read_bytes c 2 with
    | none => (.err .ioError, c)
    | some (bs, c1) => (.ok (.i16 (toSigned (beValue bs) 16)), c1)
  else if len = 3 ∨ len = 4 then
    match read_bytes c len with
    | none => (.err .ioError, c)
    | some (bs, c1) => (.ok (.i32 (toSigned (beValue bs) (8 * len))), c1)
  else if 5 ≤ len ∧ len ≤ 8 then
    match read_bytes c len with
    | none => (.err .ioError, c)
    | some (bs, c1) => (.ok (.i64 (toSigned (beValue bs) (8 * len))), c1)
  else if 9 ≤ len ∧ len ≤ 16 then
    match read_bytes_track c len with
    | (none, c1) => (.err .ioError, c1)
    | (some bs, c1) =>
      let u := beValue bs
      let sbit := 2 ^ (8 * len - 1)
      let v : Int := if u < sbit then (u : Int) else (u : Int) - sbit - 2 ^ 127
      (.ok (.i128 v), c1)
  else
    (.err (.decodingError ("integer")), c)

/-- Read a fixed-width unsigned integer of a declared byte count
(`read_unsigned_integer`): big-endian zero-extension into the width
matching the byte count; invalid lengths fail up front with a decoding
error, consuming nothing. -/
def read_unsigned_integer (c : Cursor) (len : Nat) : PResult UnsignedInteger × Cursor :=
  if len = 1 then
    match read_bytes c 1 with
    | none => (.err .ioError, c)
    | some (bs, c1) => (.ok (.u8 (beValue bs)), c1)
  else if len = 2 then
    match read_bytes c 2 with
    | none => (.err .ioError, c)
    | some (bs, c1) => (.ok (.u16 (beValue bs)), c1)
  else if len = 3 ∨ len = 4 then
    match read_bytes c len with
    | none => (.err .ioError, c)
    | some (bs, c1) => (.ok (.u32 (beValue bs)), c1)
  else if 5 ≤ len ∧ len ≤ 8 then
    match read_bytes c len with
    | none => (.err .ioError, c)
    | some (bs, c1) => (.ok (.u64 (beValue bs)), c1)
  else if 9 ≤ len ∧ len ≤ 16 then
    match read_bytes_track c len with
    | (none, c1) => (.err .ioError, c1)
    | (some bs, c1) => (.ok (.u128 (beValue bs)), c1)
  else
    (.err (.decodingError ("unsigned_integer")), c)

/-- One KLV triplet (`Klv` in the source): tag number, value byte count,
and absolute offset of the first value byte.  The shared byte source is
threaded explicitly instead of being stored in the structure. -/
structure Klv where
  tag : Nat
  length : Nat
  value_offset : Nat
deriving DecidableEq

/-- Read a Length field (`Klv::read_length`): BER decode followed by the
u128-to-u64 conversion, which aborts (`expect`) when the decoded value
does not fit in 64 bits. -/
def Klv.read_length (c : Cursor) : PResult (Nat × Cursor) :=
  match read_ber c with
  | .ok (v, c1) => if v < 2 ^ 64 then .ok (v, c1) else .panic .lengthTooBig
  | .err e => .err e
  | .panic k => .panic k

/-- Read a new KLV triplet at the current position (`Klv::new`): BER-OID
tag, BER length, record the position after the length field as
`value_offset`, then `seek_relative` by the length — which merely moves
the position, succeeding even past the end of the source.  The
u64-to-i64 conversion before the seek aborts for lengths of `2 ^ 63` or
more. -/
def Klv.new (c : Cursor) : PResult (Klv × Cursor) :=
  match read_ber_oid c with
  | .err e => .err e
  | .panic k => .panic k
  | .ok (tag, c1) =>
    match Klv.read_length c1 with
    | .err e => .err e
    | .panic k => .panic k
    | .ok (len, c2) =>
      if len < 2 ^ 63 then
        .ok (⟨tag, len, c2.pos⟩, ⟨c2.data, c2.pos + len⟩)
      else .panic .i64Convert

/-- Read a triplet's value bytes (`Klv::read_value`): save the current
position, seek to `value_offset`, read exactly `length` bytes, restore
the saved position, return the bytes.  The restoring seek is skipped when
the read fails (the `?` operator returns before it), leaving the cursor
at `value_offset`. -/
def Klv.read_value (k : Klv) (c : Cursor) : PResult (List Nat) × Cursor :=
  let saved := c.pos
  let c1 : Cursor := ⟨c.data, k.value_offset⟩
  match read_bytes c1 k.length with
  | none => (.err .ioError, c1)
  | some (bs, c2) => (.ok bs, ⟨c2.data, saved⟩)

/-- Scan loop of `UniversalSet::start_locations` over the 16-byte sliding
window: on a window/key match, record `pos - 16` (aborting if the position
is below 16), decode the following Length field and seek past the value
span; in every iteration read one more byte into the window (evicting the
oldest byte) or stop at end-of-stream.  The `fuel` argument only bounds
the recursion: every iteration that continues strictly advances the
position, which stays within `[0, data.length]`, so a fuel of
`data.length + 1` at entry makes the fuel-exhausted branch unreachable. -/
def scanLoop (key : List Nat) : Nat → List Nat → Cursor → List Nat → PResult (List Nat)
  | 0, _, _, locs => .ok locs
  | fuel + 1, win, c, locs =>
    if win = key then
      if c.pos < 16 then .panic .negOffset
      else
        match Klv.read_length c with
        | .err e => .err e
        | .panic k => .panic k
        | .ok (len, c1) =>
          if len < 2 ^ 63 then
            match read_u8 ⟨c1.data, c1.pos + len⟩ with
            | none => .ok (locs ++ [c.pos - 16])
            | some (b, c3) => scanLoop key fuel (win.drop 1 ++ [b]) c3 (locs ++ [c.pos - 16])
          else .panic .i64Convert
    else
      match read_u8 c with
      | none => .ok locs
      | some (b, c3) => scanLoop key fuel (win.drop 1 ++ [b]) c3 locs

/-- Find every start offset of the Universal Key
(`UniversalSet::start_locations`): fill the 16-byte search window from the
current position (returning no matches when fewer than 16 bytes are
available), then run the scan loop. -/
def UniversalSet.start_locations (key : List Nat) (c : Cursor) : PResult (List Nat) :=
  match read_bytes c 16 with
  | none => .ok []
  | some (w, c1) => scanLoop key (c.data.length + 1) w c1 []

/-- The Universal Key used by the repository's unit tests
(`06 0E 2B 34 02 0B 01 01 0E 01 03 01 01 00 00 00`). -/
def testKey : List Nat :=
  [6, 14, 43, 52, 2, 11, 1, 1, 14, 1, 3, 1, 1, 0, 0, 0]

/-- The repository's two-set unit-test buffer: a leading `0x06`, the key,
a 4-byte value, filler bytes resembling a key start, the key again and a
7-byte value. -/
def testBuf : List Nat :=
  [6] ++ testKey ++ [4, 1, 2, 3, 4, 255, 255, 6] ++ testKey ++ [7, 1, 1, 2, 2, 2, 4, 8]

/-! Basic facts about the byte-reading primitives. -/

theorem read_u8_eq_some {data : List Nat} {pos : Nat} (h : pos < data.length) :
    read_u8 ⟨data, pos⟩ = some (data[pos], ⟨data, pos + 1⟩) := by
  unfold read_u8
  simp [List.getElem?_eq_getElem h]

theorem read_u8_eq_none {data : List Nat} {pos : Nat} (h : data.length ≤ pos) :
    read_u8 ⟨data, pos⟩ = none := by
  unfold read_u8
  simp [List.getElem?_eq_none h]

theorem read_u8_some_inv {c c' : Cursor} {b : Nat} (h : read_u8 c = some (b, c')) :
    c'.data = c.data ∧ c'.pos = c.pos + 1 ∧ c.pos < c.data.length := by
  unfold read_u8 at h
  rcases hg : c.data[c.pos]? with _ | b0 <;> rw [hg] at h
  · cases h
  · have hlt : c.pos < c.data.length := by
      by_contra hge
      rw [List.getElem?_eq_none (by omega)] at hg
      cases hg
    cases h
    exact ⟨rfl, rfl, hlt⟩

theorem read_bytes_some_inv :
    ∀ (n : Nat) (c : Cursor) (bs : List Nat) (c' : Cursor),
      read_bytes c n = some (bs, c') → c'.data = c.data ∧ c'.pos = c.pos + n := by
  intro n
  induction n with
  | zero =>
    intro c bs c' h
    unfold read_bytes at h
    cases h
    exact ⟨rfl, rfl⟩
  | succ n ih =>
    intro c bs c' h
    unfold read_bytes at h
    rcases h1 : read_u8 c with _ | ⟨b, c1⟩ <;> rw [h1] at h
    · cases h
    · simp only at h
      rcases h2 : read_bytes c1 n with _ | ⟨bs2, c2⟩ <;> rw [h2] at h
      · cases h
      · simp only at h
        cases h
        obtain ⟨hd1, hp1, _⟩ := read_u8_some_inv h1
        obtain ⟨hd2, hp2⟩ := ih _ _ _ h2
        refine ⟨hd2.trans hd1, ?_⟩
        rw [hp2, hp1]
        omega

theorem read_bytes_eq {data : List Nat} :
    ∀ {n pos : Nat}, pos + n ≤ data.length →
      read_bytes ⟨data, pos⟩ n = some (slice data pos n, ⟨data, pos + n⟩) := by
  intro n
  induction n with
  | zero =>
    intro pos _
    simp [read_bytes, slice]
  | succ n ih =>
    intro pos h
    have hlt : pos < data.length := by omega
    have hs : slice data pos (n + 1) = data[pos] :: slice data (pos + 1) n := by
      unfold slice
      rw [List.drop_eq_getElem_cons hlt]
      rfl
    have harith : pos + 1 + n = pos + (n + 1) := by omega
    unfold read_bytes
    rw [read_u8_eq_some hlt]
    simp only
    rw [ih (by omega)]
    simp only
    rw [hs, harith]

/-! Shape facts about the BER and BER-OID decoders. -/

theorem read_ber_ok_inv {c c' : Cursor} {v : Nat} (h : read_ber c = .ok (v, c')) :
    c'.data = c.data ∧ c.pos < c'.pos := by
  unfold read_ber at h
  rcases h1 : read_u8 c with _ | ⟨b, c1⟩ <;> rw [h1] at h
  · cases h
  · simp only at h
    obtain ⟨hd1, hp1, _⟩ := read_u8_some_inv h1
    by_cases hb : b < 128
    · rw [if_pos hb] at h
      cases h
      exact ⟨hd1, by omega⟩
    · rw [if_neg hb] at h
      by_cases hz : b % 128 = 0
      · rw [if_pos hz] at h
        cases h
      · rw [if_neg hz] at h
        unfold read_ber_long_form at h
        rcases h2 : read_bytes c1 (b % 128) with _ | ⟨bs, c2⟩ <;> rw [h2] at h
        · cases h
        · simp only at h
          obtain ⟨hd2, hp2⟩ := read_bytes_some_inv _ _ _ _ h2
          by_cases hv : beValue bs < 2 ^ 128
          · rw [if_pos hv] at h
            cases h
            refine ⟨hd2.trans hd1, ?_⟩
            omega
          · rw [if_neg hv] at h
            cases h

theorem read_ber_panic_inv {c : Cursor} {k : PanicKind} (h : read_ber c = .panic k) :
    k = .berZeroCount ∨ k = .berOverflow := by
  unfold read_ber at h
  rcases h1 : read_u8 c with _ | ⟨b, c1⟩ <;> rw [h1] at h
  · cases h
  · simp only at h
    by_cases hb : b < 128
    · rw [if_pos hb] at h
      cases h
    · rw [if_neg hb] at h
      by_cases hz : b % 128 = 0
      · rw [if_pos hz] at h
        cases h
        exact Or.inl rfl
      · rw [if_neg hz] at h
        unfold read_ber_long_form at h
        rcases h2 : read_bytes c1 (b % 128) with _ | ⟨bs, c2⟩ <;> rw [h2] at h
        · cases h
        · simp only at h
          by_cases hv : beValue bs < 2 ^ 128
          · rw [if_pos hv] at h
            cases h
          · rw [if_neg hv] at h
            cases h
            exact Or.inr rfl

theorem read_length_ok_inv {c c' : Cursor} {v : Nat}
    (h : Klv.read_length c = .ok (v, c')) :
    c'.data = c.data ∧ c.pos < c'.pos := by
  unfold Klv.read_length at h
  rcases h1 : read_ber c with ⟨v1, c1⟩ | e | k <;> rw [h1] at h
  · simp only at h
    by_cases hv : v1 < 2 ^ 64
    · rw [if_pos hv] at h
      cases h
      exact read_ber_ok_inv h1
    · rw [if_neg hv] at h
      cases h
  · cases h
  · cases h

theorem read_length_panic_inv {c : Cursor} {k : PanicKind}
    (h : Klv.read_length c = .panic k) :
    k = .berZeroCount ∨ k = .berOverflow ∨ k = .lengthTooBig := by
  unfold Klv.read_length at h
  rcases h1 : read_ber c with ⟨v1, c1⟩ | e | k1 <;> rw [h1] at h
  · simp only at h
    by_cases hv : v1 < 2 ^ 64
    · rw [if_pos hv] at h
      cases h
    · rw [if_neg hv] at h
      cases h
      exact Or.inr (Or.inr rfl)
  · cases h
  · cases h
    rcases read_ber_panic_inv h1 with h2 | h2
    · exact Or.inl h2
    · exact Or.inr (Or.inl h2)

theorem read_length_eq {c c1 : Cursor} {v : Nat}
    (hber : read_ber c = .ok (v, c1)) (hv : v < 2 ^ 64) :
    Klv.read_length c = .ok (v, c1) := by
  unfold Klv.read_length
  rw [hber]
  simp only
  rw [if_pos hv]

/-! Claim theorems. -/

/-- C1: the signed fixed-width decoder on 9 bytes of `0xFF` does not
return `-1`: the sign-bit relocation in the 9–16-byte branch clears the
sign bit, zero-pads to 128 bits and re-sets bit 127, producing
`2 ^ 71 - 1 - 2 ^ 127` instead of sign-extending to `-1` (the behaviour
the documentation and the 1–8-byte branches imply). -/
theorem read_integer_allFF_len9_sign_relocation :
    read_integer ⟨List.replicate 9 255, 0⟩ 9
      = (.ok (.i128 ((2 : Int) ^ 71 - 1 - 2 ^ 127)), ⟨List.replicate 9 255, 9⟩)
    ∧ ((2 : Int) ^ 71 - 1 - 2 ^ 127) ≠ -1 := by
  set_option maxRecDepth 4000 in
  constructor
  · decide
  · decide

/-- C3: BER decode of the short-form encodings of 0 and 127 returns the
value and advances the cursor by exactly 1 byte; BER decode of the
long-form encodings of 128, 16383 and `2 ^ 128 - 1` returns the value and
advances the cursor by exactly `1 + N` bytes. -/
theorem read_ber_roundtrip_examples :
    read_ber ⟨[0], 0⟩ = .ok (0, ⟨[0], 1⟩)
    ∧ read_ber ⟨[127], 0⟩ = .ok (127, ⟨[127], 1⟩)
    ∧ read_ber ⟨[129, 128], 0⟩ = .ok (128, ⟨[129, 128], 2⟩)
    ∧ read_ber ⟨[130, 63, 255], 0⟩ = .ok (16383, ⟨[130, 63, 255], 3⟩)
    ∧ read_ber ⟨144 :: List.replicate 16 255, 0⟩
        = .ok (2 ^ 128 - 1, ⟨144 :: List.replicate 16 255, 17⟩) := by
  refine ⟨by decide, by decide, by decide, by decide, by decide⟩

/-- C7 counterexample: on a source whose first byte is `0x80` (MSB set,
payload byte count 0), `read_ber` aborts the process with the
`MSB in BER is 1 but all other bits are 0` panic rather than returning a
malformed-header decode error. -/
theorem read_ber_zero_count_cex :
    read_ber ⟨[128], 0⟩ = .panic .berZeroCount := by
  decide

/-- C7 amended: on every source whose current byte is `0x80`, `read_ber`
aborts the process (panic), it does not return a decode error. -/
theorem read_ber_zero_count_aborts (data : List Nat) (pos : Nat)
    (h : data[pos]? = some 128) :
    read_ber ⟨data, pos⟩ = .panic .berZeroCount := by
  unfold read_ber read_u8
  simp [h]

/-- Witness for the C7 amended theorem at the concrete source
`[0x80, 0x07]`. -/
theorem read_ber_zero_count_aborts_witness :
    ([128, 7] : List Nat)[0]? = some 128
    ∧ read_ber ⟨[128, 7], 0⟩ = .panic .berZeroCount :=
  ⟨by decide, read_ber_zero_count_aborts [128, 7] 0 (by decide)⟩

/-- C8: for every cursor and every declared length of 0 or more than 16
(within the u8 domain of the length argument), both fixed-width decoders
return a decoding error naming their kind, do not abort, and leave the
cursor untouched: the length check precedes every read. -/
theorem fixed_width_invalid_length (c : Cursor) (len : Nat)
    (h : len = 0 ∨ 17 ≤ len) (h255 : len ≤ 255) :
    read_integer c len = (.err (.decodingError ("integer")), c)
    ∧ read_unsigned_integer c len = (.err (.decodingError ("unsigned_integer")), c) := by
  constructor
  · unfold read_integer
    rw [if_neg (by omega), if_neg (by omega), if_neg (by omega),
      if_neg (by omega), if_neg (by omega)]
  · unfold read_unsigned_integer
    rw [if_neg (by omega), if_neg (by omega), if_neg (by omega),
      if_neg (by omega), if_neg (by omega)]

/-- Witness for the C8 theorem at length 17 on a one-byte source. -/
theorem fixed_width_invalid_length_witness :
    ((17 : Nat) = 0 ∨ 17 ≤ (17 : Nat)) ∧ (17 : Nat) ≤ 255
    ∧ read_integer ⟨[0], 0⟩ 17 = (.err (.decodingError ("integer")), ⟨[0], 0⟩)
    ∧ read_unsigned_integer ⟨[0], 0⟩ 17
        = (.err (.decodingError ("unsigned_integer")), ⟨[0], 0⟩) :=
  ⟨Or.inr (by decide), by decide,
    (fixed_width_invalid_length ⟨[0], 0⟩ 17 (Or.inr (by decide)) (by decide)).1,
    (fixed_width_invalid_length ⟨[0], 0⟩ 17 (Or.inr (by decide)) (by decide)).2⟩

/-- C9: a syntactically valid BER length field whose value exceeds
`2 ^ 64 - 1` (header `0x89` followed by nine `0xFF` bytes, value
`2 ^ 72 - 1`) makes `Klv::read_length` abort the process via the
u128-to-u64 conversion instead of returning an error. -/
theorem read_length_overflow_aborts :
    read_ber ⟨137 :: List.replicate 9 255, 0⟩
      = .ok (2 ^ 72 - 1, ⟨137 :: List.replicate 9 255, 10⟩)
    ∧ 2 ^ 64 - 1 < 2 ^ 72 - 1
    ∧ Klv.read_length ⟨137 :: List.replicate 9 255, 0⟩ = .panic .lengthTooBig := by
  refine ⟨by decide, by decide, by decide⟩

/-- Running the BER-OID accumulation loop over continuation bytes `bs`
followed by a terminal byte `last` (MSB clear) folds the low 7-bit groups
into the accumulator and stops just past the terminal byte. -/
theorem read_ber_oid_loop_run :
    ∀ (bs : List Nat) (last acc : Nat) (data : List Nat) (pos fuel : Nat),
      data.drop pos = bs ++ [last] →
      (∀ b ∈ bs, 128 ≤ b) → last < 128 →
      bs.length + 1 ≤ fuel →
      read_ber_oid_loop fuel ⟨data, pos⟩ acc
        = .ok ((bs ++ [last]).foldl (fun a b => a * 128 + b % 128) acc,
            ⟨data, pos + (bs.length + 1)⟩) := by
  intro bs
  induction bs with
  | nil =>
    intro last acc data pos fuel hdrop hbs hlast hfuel
    obtain ⟨fuel0, rfl⟩ : ∃ f, fuel = f + 1 := ⟨fuel - 1, by omega⟩
    have hget : data[pos]? = some last := by
      have h0 : (data.drop pos)[0]? = some last := by rw [hdrop]; simp
      rwa [List.getElem?_drop, Nat.add_zero] at h0
    unfold read_ber_oid_loop read_u8
    rw [hget]
    simp only
    rw [if_pos hlast]
    simp
  | cons b bs ih =>
    intro last acc data pos fuel hdrop hbs hlast hfuel
    obtain ⟨fuel0, rfl⟩ : ∃ f, fuel = f + 1 := ⟨fuel - 1, by omega⟩
    have hget : data[pos]? = some b := by
      have h0 : (data.drop pos)[0]? = some b := by rw [hdrop]; simp
      rwa [List.getElem?_drop, Nat.add_zero] at h0
    have hdrop1 : data.drop (pos + 1) = bs ++ [last] := by
      have h1 := List.drop_drop 1 pos data
      rw [hdrop] at h1
      exact h1.symm
    have hb : 128 ≤ b := hbs b (by simp)
    have harith : pos + 1 + (bs.length + 1) = pos + ((b :: bs).length + 1) := by
      simp only [List.length_cons]
      omega
    unfold read_ber_oid_loop read_u8
    rw [hget]
    simp only
    rw [if_neg (by omega)]
    rw [ih last (acc * 128 + b % 128) data (pos + 1) fuel0 hdrop1
      (fun x hx => hbs x (by simp [hx])) hlast
      (by simp only [List.length_cons] at hfuel; omega)]
    rw [harith]
    simp only [List.cons_append, List.foldl_cons]

/-- C4 counterexample: the byte sequence `0x84` followed by seventeen
`0x80` continuation bytes and a terminal `0x00` has the claimed shape
(every byte except the last has the MSB set, the last has it clear), yet
`read_ber_oid` aborts the process with the 128-bit overflow panic instead
of returning the concatenated value (`2 ^ 128`, 129 significant bits). -/
theorem read_ber_oid_overflow_cex :
    (∀ b ∈ ((132 :: List.replicate 17 128) : List Nat), 128 ≤ b)
    ∧ (0 : Nat) < 128
    ∧ oidValue ((132 :: List.replicate 17 128) ++ [0]) = 2 ^ 128
    ∧ read_ber_oid ⟨(132 :: List.replicate 17 128) ++ [0], 0⟩ = .panic .berOidOverflow := by
  refine ⟨by decide, by decide, by decide, by decide⟩

/-- C4 amended: for every byte sequence whose bytes all have the
continuation bit set except a terminal byte with MSB clear, and whose
concatenated 7-bit-group value has at most 128 significant bits,
`read_ber_oid` returns exactly that big-endian concatenation (hence 0
when all groups are zero) and consumes the whole sequence; when the
value needs more than 128 bits the decoder aborts instead. -/
theorem read_ber_oid_concat (bs : List Nat) (last : Nat)
    (hbs : ∀ b ∈ bs, 128 ≤ b ∧ b < 256) (hlast : last < 128)
    (hval : oidValue (bs ++ [last]) < 2 ^ 128) :
    read_ber_oid ⟨bs ++ [last], 0⟩
      = .ok (oidValue (bs ++ [last]), ⟨bs ++ [last], bs.length + 1⟩) := by
  have hval2 : (bs ++ [last]).foldl (fun a b => a * 128 + b % 128) 0 < 2 ^ 128 := hval
  unfold read_ber_oid
  rw [read_ber_oid_loop_run bs last 0 (bs ++ [last]) 0 ((bs ++ [last]).length + 1)
    (by simp) (fun b hb => (hbs b hb).1) hlast (by simp)]
  simp only
  rw [if_pos hval2]
  simp only [Nat.zero_add]
  rfl

/-- Witness for the C4 amended theorem: `[0x81, 0x00]` decodes to 128. -/
theorem read_ber_oid_concat_witness :
    (∀ b ∈ ([129] : List Nat), 128 ≤ b ∧ b < 256) ∧ (0 : Nat) < 128
    ∧ oidValue ([129] ++ [0]) < 2 ^ 128
    ∧ read_ber_oid ⟨[129] ++ [0], 0⟩ = .ok (oidValue ([129] ++ [0]), ⟨[129] ++ [0], 2⟩) :=
  ⟨by decide, by decide, by decide,
    read_ber_oid_concat [129] 0 (by decide) (by decide) (by decide)⟩

/-- C5 counterexample: reading the value of the triplet
`{tag 1, length 5, value_offset 2}` over the two-byte source `[1, 5]`
fails (not enough bytes) and leaves the shared cursor at position 2 (the
value offset), not at its saved position 7: the restoring seek is skipped
on the error path. -/
theorem read_value_error_path_cex :
    Klv.read_value ⟨1, 5, 2⟩ ⟨[1, 5], 7⟩ = (.err .ioError, ⟨[1, 5], 2⟩)
    ∧ (2 : Nat) ≠ 7 := by
  refine ⟨by decide, by decide⟩

/-- C5 amended: on the success path `Klv::read_value` restores the shared
cursor exactly (the returned cursor equals the input cursor) and a second
call returns byte-identical results; only the failure path skips the
restore. -/
theorem read_value_success_restores (k : Klv) (c : Cursor) (bs : List Nat) (c' : Cursor)
    (h : Klv.read_value k c = (.ok bs, c')) :
    c' = c ∧ Klv.read_value k c' = (.ok bs, c') := by
  unfold Klv.read_value at h ⊢
  simp only at h ⊢
  rcases h2 : read_bytes ⟨c.data, k.value_offset⟩ k.length with _ | ⟨bs2, c2⟩ <;>
    rw [h2] at h
  · cases h
  · simp only at h
    cases h
    have hd : c2.data = c.data := (read_bytes_some_inv _ _ _ _ h2).1
    constructor
    · rw [hd]
    · rw [hd, h2]
      simp only
      rw [hd]

/-- Witness for the C5 amended theorem on the source `[1, 1, 9]` with the
triplet `{tag 1, length 1, value_offset 2}` and cursor at 3. -/
theorem read_value_success_restores_witness :
    Klv.read_value ⟨1, 1, 2⟩ ⟨[1, 1, 9], 3⟩ = (.ok [9], ⟨[1, 1, 9], 3⟩)
    ∧ (⟨[1, 1, 9], 3⟩ : Cursor) = ⟨[1, 1, 9], 3⟩
    ∧ Klv.read_value ⟨1, 1, 2⟩ ⟨[1, 1, 9], 3⟩ = (.ok [9], ⟨[1, 1, 9], 3⟩) :=
  ⟨by decide,
    (read_value_success_restores ⟨1, 1, 2⟩ ⟨[1, 1, 9], 3⟩ [9] ⟨[1, 1, 9], 3⟩ (by decide)).1,
    (read_value_success_restores ⟨1, 1, 2⟩ ⟨[1, 1, 9], 3⟩ [9] ⟨[1, 1, 9], 3⟩ (by decide)).2⟩

/-- C6 counterexample: on the source `[0x01, 0x05]` the tag (1) and the
length (5) decode successfully and the value span `[2, 7)` extends past
the two-byte source, yet `Klv::new` succeeds (the relative seek on a
cursor merely moves the position past the end), returning the triplet and
a cursor at position 7. -/
theorem klv_new_overlong_cex :
    read_ber_oid ⟨[1, 5], 0⟩ = .ok (1, ⟨[1, 5], 1⟩)
    ∧ read_ber ⟨[1, 5], 1⟩ = .ok (5, ⟨[1, 5], 2⟩)
    ∧ ([1, 5] : List Nat).length < 2 + 5
    ∧ Klv.new ⟨[1, 5], 0⟩ = .ok (⟨1, 5, 2⟩, ⟨[1, 5], 7⟩) := by
  refine ⟨by decide, by decide, by decide, by decide⟩

/-- C6 amended: whenever the tag and the length decode successfully (and
the length is below `2 ^ 63`, avoiding the conversion abort), `Klv::new`
succeeds unconditionally — no bounds check is made against the source
end; the cursor is simply placed at `value_offset + length`, possibly
past the end. -/
theorem klv_new_no_bounds_check (data : List Nat) (pos tag len : Nat) (c1 c2 : Cursor)
    (htag : read_ber_oid ⟨data, pos⟩ = .ok (tag, c1))
    (hlen : read_ber c1 = .ok (len, c2))
    (hsmall : len < 2 ^ 63) :
    Klv.new ⟨data, pos⟩ = .ok (⟨tag, len, c2.pos⟩, ⟨c2.data, c2.pos + len⟩) := by
  unfold Klv.new
  rw [htag]
  simp only
  rw [read_length_eq hlen (by omega)]
  simp only
  rw [if_pos hsmall]

/-- Witness for the C6 amended theorem on the source `[2, 3]` (tag 2,
length 3, no value bytes): construction succeeds with the cursor at 5,
past the end. -/
theorem klv_new_no_bounds_check_witness :
    read_ber_oid ⟨[2, 3], 0⟩ = .ok (2, ⟨[2, 3], 1⟩)
    ∧ read_ber ⟨[2, 3], 1⟩ = .ok (3, ⟨[2, 3], 2⟩)
    ∧ (3 : Nat) < 2 ^ 63
    ∧ Klv.new ⟨[2, 3], 0⟩ = .ok (⟨2, 3, 2⟩, ⟨[2, 3], 5⟩) :=
  ⟨by decide, by decide, by decide,
    klv_new_no_bounds_check [2, 3] 0 2 3 ⟨[2, 3], 1⟩ ⟨[2, 3], 2⟩
      (by decide) (by decide) (by decide)⟩

/-- The scan loop never reaches the negative-offset abort once the
position is at least 16: the position only moves forward, so every later
match check still sees a position of at least 16. -/
theorem scanLoop_no_neg (key : List Nat) :
    ∀ (fuel : Nat) (win : List Nat) (c : Cursor) (locs : List Nat),
      16 ≤ c.pos → isNegOffset (scanLoop key fuel win c locs) = false := by
  intro fuel
  induction fuel with
  | zero =>
    intro win c locs _
    rfl
  | succ fuel ih =>
    intro win c locs h16
    unfold scanLoop
    by_cases hw : win = key
    · rw [if_pos hw, if_neg (by omega)]
      rcases hrl : Klv.read_length c with ⟨len, c1⟩ | e | k <;> simp only
      · have hmono := read_length_ok_inv hrl
        by_cases hlen : len < 2 ^ 63
        · rw [if_pos hlen]
          rcases hr : read_u8 ⟨c1.data, c1.pos + len⟩ with _ | ⟨b, c3⟩ <;> simp only
          · rfl
          · obtain ⟨hd3, hp3, hlt3⟩ := read_u8_some_inv hr
            simp only at hp3
            exact ih _ c3 _ (by omega)
        · rw [if_neg hlen]
          rfl
      · rfl
      · rcases read_length_panic_inv hrl with h | h | h <;> rw [h] <;> rfl
    · rw [if_neg hw]
      rcases hr : read_u8 c with _ | ⟨b, c3⟩ <;> simp only
      · rfl
      · have h3 := read_u8_some_inv hr
        exact ih _ c3 _ (by omega)

/-- C10: the negative-offset abort in `UniversalSet::start_locations` is
unreachable: after the 16-byte window fill the position is at least 16
and the scan only moves forward, so whenever the window matches the key
the `checked_sub` start-position computation succeeds. -/
theorem start_locations_no_negative_offset_abort (key : List Nat) (c : Cursor) :
    isNegOffset (UniversalSet.start_locations key c) = false := by
  unfold UniversalSet.start_locations
  rcases h : read_bytes c 16 with _ | ⟨w, c1⟩ <;> simp only
  · rfl
  · have h1 := read_bytes_some_inv _ _ _ _ h
    exact scanLoop_no_neg key _ w c1 [] (by omega)

/-! Window algebra for the sliding-window scan: the 16-byte search window
after reading up to position `j`, having landed at `q0` with window
contents `K`, is the last 16 bytes of `K ++ slice data q0 (j - q0)`. -/

theorem slice_full_length {data : List Nat} {s n : Nat} (h : s + n ≤ data.length) :
    (slice data s n).length = n := by
  unfold slice
  rw [List.length_take, List.length_drop]
  omega

theorem slice_append (data : List Nat) (a n m : Nat) :
    slice data a n ++ slice data (a + n) m = slice data a (n + m) := by
  unfold slice
  rw [List.take_add (data.drop a) n m, List.drop_drop n a data]

theorem lastN_slice {data : List Nat} {q0 i : Nat} (h1 : q0 + 16 ≤ i)
    (h2 : i ≤ data.length) :
    lastN 16 (slice data q0 (i - q0)) = slice data (i - 16) 16 := by
  unfold lastN
  rw [slice_full_length (by omega)]
  unfold slice
  rw [List.drop_take (i - q0) (i - q0 - 16) (data.drop q0),
    List.drop_drop (i - q0 - 16) q0 data,
    show q0 + (i - q0 - 16) = i - 16 from by omega,
    show i - q0 - (i - q0 - 16) = 16 from by omega]

theorem window_lt {K S : List Nat} (hK : K.length = 16) (hm : S.length ≤ 16) :
    lastN 16 (K ++ S) = K.drop S.length ++ S := by
  unfold lastN
  rw [List.length_append, hK,
    show 16 + S.length - 16 = S.length from by omega,
    List.drop_append_of_le_length (by omega)]

theorem window_ge {K S : List Nat} (hK : K.length = 16) (hm : 16 ≤ S.length) :
    lastN 16 (K ++ S) = lastN 16 S := by
  unfold lastN
  rw [List.length_append,
    show K.length + S.length - 16 = K.length + (S.length - 16) from by omega,
    List.drop_append (S.length - 16)]

theorem windowUpdate {L : List Nat} (b : Nat) (hL : 16 ≤ L.length) :
    (lastN 16 L).drop 1 ++ [b] = lastN 16 (L ++ [b]) := by
  unfold lastN
  rw [List.drop_drop 1 (L.length - 16) L,
    List.length_append,
    show L.length + [b].length - 16 = L.length - 16 + 1 from by simp; omega,
    List.drop_append_of_le_length (by omega)]

theorem slice_one {data : List Nat} {j : Nat} (h : j < data.length) :
    slice data j 1 = [data[j]] := by
  unfold slice
  rw [List.drop_eq_getElem_cons h]
  rfl

theorem slice_snoc {data : List Nat} {q0 j : Nat} (hq0 : q0 ≤ j) (h : j < data.length) :
    slice data q0 (j - q0) ++ [data[j]] = slice data q0 (j + 1 - q0) := by
  have h1 := slice_append data q0 (j - q0) 1
  rw [show q0 + (j - q0) = j from by omega, slice_one h,
    show j - q0 + 1 = j + 1 - q0 from by omega] at h1
  exact h1

theorem occAt_le {data key : List Nat} {p : Nat} (h : occAt data key p)
    (hk : key.length = 16) : p + 16 ≤ data.length := by
  unfold occAt slice at h
  have hl := congrArg List.length h
  simp only [List.length_take, List.length_drop, hk] at hl
  omega

/-- A rebuilt window (key contents at `q0`, `i - q0` fresh bytes) cannot
equal a key that has no nonempty proper border, unless it is again a full
true window sitting on an occurrence at `i - 16`. -/
theorem no_window_match {key data : List Nat} {q0 i : Nat}
    (hkey : key.length = 16)
    (hbf : ∀ m, m < 16 → 0 < m → key.drop m ≠ key.take (16 - m))
    (hq0 : q0 < i) (hilen : i ≤ data.length)
    (hocc : 16 ≤ i - q0 → ¬ occAt data key (i - 16)) :
    lastN 16 (key ++ slice data q0 (i - q0)) ≠ key := by
  intro hcontra
  have hslen : (slice data q0 (i - q0)).length = i - q0 := slice_full_length (by omega)
  by_cases hm : i - q0 ≤ 15
  · rw [window_lt hkey (by omega), hslen] at hcontra
    have htake := congrArg (List.take (16 - (i - q0))) hcontra
    rw [List.take_append_of_le_length (by simp [hkey]),
      List.take_of_length_le (by simp [hkey])] at htake
    exact hbf (i - q0) (by omega) (by omega) htake
  · rw [window_ge hkey (by omega), lastN_slice (by omega) hilen] at hcontra
    exact hocc (by omega) hcontra

/-- Scanning byte by byte (no window match strictly before the occurrence
at `p`, a full window match at `p + 16`) carries the loop from position
`j` to the match state at `p + 16`, consuming `p + 16 - j` units of fuel. -/
theorem scan_reach (key data K : List Nat) (q0 p : Nat)
    (hK : K.length = 16) (hplen : p + 16 ≤ data.length) :
    ∀ (n f j : Nat) (locs : List Nat), p + 16 - j = n → q0 ≤ j → j ≤ p + 16 →
      (∀ i, j ≤ i → i < p + 16 → lastN 16 (K ++ slice data q0 (i - q0)) ≠ key) →
      lastN 16 (K ++ slice data q0 (p + 16 - q0)) = key →
      scanLoop key (f + (p + 16 - j)) (lastN 16 (K ++ slice data q0 (j - q0)))
          ⟨data, j⟩ locs
        = scanLoop key f key ⟨data, p + 16⟩ locs := by
  intro n
  induction n with
  | zero =>
    intro f j locs hn hq0 hjp hno hend
    have hj : j = p + 16 := by omega
    subst hj
    rw [hend, show f + (p + 16 - (p + 16)) = f from by omega]
  | succ n ih =>
    intro f j locs hn hq0 hjp hno hend
    have hjlt : j < p + 16 := by omega
    have hjdata : j < data.length := by omega
    have hKS : 16 ≤ (K ++ slice data q0 (j - q0)).length := by
      rw [List.length_append, hK]; omega
    rw [show f + (p + 16 - j) = (f + (p + 16 - (j + 1))) + 1 from by omega]
    simp only [scanLoop]
    rw [if_neg (hno j le_rfl hjlt), read_u8_eq_some hjdata]
    simp only
    rw [windowUpdate data[j] hKS, List.append_assoc, slice_snoc hq0 hjdata]
    exact ih f (j + 1) locs (by omega) (by omega) (by omega)
      (fun i hi1 hi2 => hno i (by omega) hi2) hend

/-- When no later reachable window position can match the key, the scan
loop runs to end-of-stream and returns its accumulated locations. -/
theorem scan_nomore (key data K : List Nat) (q0 : Nat) (hK : K.length = 16) :
    ∀ (fuel j : Nat) (locs : List Nat), q0 ≤ j → j ≤ data.length →
      (∀ i, j ≤ i → i ≤ data.length → lastN 16 (K ++ slice data q0 (i - q0)) ≠ key) →
      scanLoop key fuel (lastN 16 (K ++ slice data q0 (j - q0))) ⟨data, j⟩ locs
        = .ok locs := by
  intro fuel
  induction fuel with
  | zero =>
    intro j locs _ _ _
    rfl
  | succ fuel ih =>
    intro j locs hq0 hjlen hno
    simp only [scanLoop]
    rw [if_neg (hno j le_rfl hjlen)]
    by_cases hj : j < data.length
    · rw [read_u8_eq_some hj]
      simp only
      have hKS : 16 ≤ (K ++ slice data q0 (j - q0)).length := by
        rw [List.length_append, hK]; omega
      rw [windowUpdate data[j] hKS, List.append_assoc, slice_snoc hq0 hj]
      exact ih (j + 1) locs (by omega) (by omega) (fun i hi1 hi2 => hno i (by omega) hi2)
    · rw [read_u8_eq_none (by omega)]

/-- One match-processing step of the scan loop: with the window equal to
the key at position `p + 16`, the loop records `p`, decodes the length
field, skips the value span and reads the next byte. -/
theorem scan_match_step (key data : List Nat) (locs : List Nat) (p f len0 e : Nat)
    (hber : read_ber ⟨data, p + 16⟩ = .ok (len0, ⟨data, e⟩)) (hl : len0 < 2 ^ 63) :
    scanLoop key (f + 1) key ⟨data, p + 16⟩ locs
      = match read_u8 ⟨data, e + len0⟩ with
        | none => .ok (locs ++ [p])
        | some (b, c3) => scanLoop key f (key.drop 1 ++ [b]) c3 (locs ++ [p]) := by
  simp only [scanLoop, if_true]
  rw [if_neg (show ¬ p + 16 < 16 from by omega)]
  rw [read_length_eq hber (by omega)]
  simp only
  rw [if_pos hl]
  simp only [Nat.add_sub_cancel]

/-- C2 amended: on a source with exactly two occurrences `p1 < p2` of a
16-byte key that has no nonempty proper border, where each occurrence is
immediately followed by a BER length field decoding successfully to a
value below `2 ^ 63` and the first value span ends at or before `p2`,
`start_locations` returns exactly `[p1, p2]`, in ascending order. -/
theorem start_locations_two_keys
    (key data : List Nat) (p1 p2 e1 l1 e2 l2 : Nat)
    (hkey : key.length = 16)
    (hbf : ∀ m, m < 16 → 0 < m → key.drop m ≠ key.take (16 - m))
    (hp1 : occAt data key p1)
    (hp2 : occAt data key p2)
    (hlt : p1 < p2)
    (honly : ∀ p, p < data.length → occAt data key p → p = p1 ∨ p = p2)
    (hber1 : read_ber ⟨data, p1 + 16⟩ = .ok (l1, ⟨data, e1⟩))
    (hspan1 : e1 + l1 ≤ p2)
    (hl1 : l1 < 2 ^ 63)
    (hber2 : read_ber ⟨data, p2 + 16⟩ = .ok (l2, ⟨data, e2⟩))
    (hl2 : l2 < 2 ^ 63) :
    UniversalSet.start_locations key ⟨data, 0⟩ = .ok [p1, p2] := by
  have hlen1 : p1 + 16 ≤ data.length := occAt_le hp1 hkey
  have hlen2 : p2 + 16 ≤ data.length := occAt_le hp2 hkey
  have hocc_imp : ∀ q, occAt data key q → q = p1 ∨ q = p2 := fun q hq =>
    honly q (by have := occAt_le hq hkey; omega) hq
  have he1 : p1 + 16 < e1 := (read_ber_ok_inv hber1).2
  have he2 : p2 + 16 < e2 := (read_ber_ok_inv hber2).2
  have hKA : (slice data 0 16).length = 16 := slice_full_length (by omega)
  have hwinclean : ∀ i, 16 ≤ i → i ≤ data.length →
      lastN 16 (slice data 0 16 ++ slice data 16 (i - 16)) = slice data (i - 16) 16 := by
    intro i h1 h2
    have h3 := slice_append data 0 16 (i - 16)
    simp only [Nat.zero_add] at h3
    rw [show 16 + (i - 16) = i from by omega] at h3
    rw [h3]
    have h4 := @lastN_slice data 0 i (by omega) h2
    simpa using h4
  have hwinA : lastN 16 (slice data 0 16 ++ slice data 16 (16 - 16)) = slice data 0 16 := by
    rw [show slice data 16 (16 - 16) = [] from rfl, List.append_nil]
    unfold lastN
    rw [hKA]
    simp
  have hnoA : ∀ i, 16 ≤ i → i < p1 + 16 →
      lastN 16 (slice data 0 16 ++ slice data 16 (i - 16)) ≠ key := by
    intro i h1 h2 hcontra
    rw [hwinclean i h1 (by omega)] at hcontra
    rcases hocc_imp (i - 16) hcontra with h | h <;> omega
  have hendA : lastN 16 (slice data 0 16 ++ slice data 16 (p1 + 16 - 16)) = key := by
    rw [hwinclean (p1 + 16) (by omega) (by omega), Nat.add_sub_cancel]
    exact hp1
  have hnoB : ∀ i, e1 + l1 + 1 ≤ i → i < p2 + 16 →
      lastN 16 (key ++ slice data (e1 + l1) (i - (e1 + l1))) ≠ key := by
    intro i hi1 hi2
    apply no_window_match hkey hbf (by omega) (by omega)
    intro h16 hocc
    rcases hocc_imp _ hocc with h | h <;> omega
  have hendB : lastN 16 (key ++ slice data (e1 + l1) (p2 + 16 - (e1 + l1))) = key := by
    have hs : (slice data (e1 + l1) (p2 + 16 - (e1 + l1))).length = p2 + 16 - (e1 + l1) :=
      slice_full_length (by omega)
    rw [window_ge hkey (by rw [hs]; omega),
      lastN_slice (by omega) (by omega), Nat.add_sub_cancel]
    exact hp2
  have hnoC : ∀ i, e2 + l2 + 1 ≤ i → i ≤ data.length →
      lastN 16 (key ++ slice data (e2 + l2) (i - (e2 + l2))) ≠ key := by
    intro i hi1 hi2
    apply no_window_match hkey hbf (by omega) hi2
    intro h16 hocc
    rcases hocc_imp _ hocc with h | h <;> omega
  unfold UniversalSet.start_locations
  rw [read_bytes_eq (by omega)]
  simp only
  show scanLoop key (data.length + 1) (slice data 0 16) ⟨data, 16⟩ [] = .ok [p1, p2]
  rw [← hwinA]
  rw [show data.length + 1 = (data.length + 1 - p1) + (p1 + 16 - 16) from by omega]
  rw [scan_reach key data (slice data 0 16) 16 p1 hKA hlen1 (p1 + 16 - 16)
    (data.length + 1 - p1) 16 [] rfl (le_refl 16) (by omega) hnoA hendA]
  rw [show data.length + 1 - p1 = (data.length - p1) + 1 from by omega]
  rw [scan_match_step key data [] p1 (data.length - p1) l1 e1 hber1 hl1]
  rw [read_u8_eq_some (show e1 + l1 < data.length from by omega)]
  simp only [List.nil_append]
  have hwinB : key.drop 1 ++ [data[e1 + l1]]
      = lastN 16 (key ++ slice data (e1 + l1) (e1 + l1 + 1 - (e1 + l1))) := by
    rw [show e1 + l1 + 1 - (e1 + l1) = 1 from by omega,
      slice_one (show e1 + l1 < data.length from by omega),
      window_lt hkey (by simp)]
    simp
  rw [hwinB]
  rw [show data.length - p1
      = ((data.length - p1) - (p2 + 16 - (e1 + l1 + 1))) + (p2 + 16 - (e1 + l1 + 1))
    from by omega]
  rw [scan_reach key data key (e1 + l1) p2 hkey hlen2 (p2 + 16 - (e1 + l1 + 1))
    ((data.length - p1) - (p2 + 16 - (e1 + l1 + 1))) (e1 + l1 + 1) [p1] rfl
    (by omega) (by omega) hnoB hendB]
  rw [show (data.length - p1) - (p2 + 16 - (e1 + l1 + 1))
      = ((data.length - p1) - (p2 + 16 - (e1 + l1 + 1)) - 1) + 1 from by omega]
  rw [scan_match_step key data [p1] p2
    ((data.length - p1) - (p2 + 16 - (e1 + l1 + 1)) - 1) l2 e2 hber2 hl2]
  simp only [List.cons_append, List.nil_append]
  by_cases hd2 : e2 + l2 < data.length
  · rw [read_u8_eq_some hd2]
    simp only
    have hwinC : key.drop 1 ++ [data[e2 + l2]]
        = lastN 16 (key ++ slice data (e2 + l2) (e2 + l2 + 1 - (e2 + l2))) := by
      rw [show e2 + l2 + 1 - (e2 + l2) = 1 from by omega,
        slice_one hd2,
        window_lt hkey (by simp)]
      simp
    rw [hwinC]
    rw [scan_nomore key data key (e2 + l2) hkey
      ((data.length - p1) - (p2 + 16 - (e1 + l1 + 1)) - 1) (e2 + l2 + 1) [p1, p2]
      (by omega) (by omega) hnoC]
  · rw [read_u8_eq_none (by omega)]

/-- C2 counterexample: with the self-overlapping key `0xAA × 16` and the
source `key ++ [0x00] ++ key ++ [0x00]`, the key occurs exactly at
offsets 0 and 17, each occurrence is followed by a valid (short-form,
value 0) BER length field, and the empty first value span ends at the
second occurrence — yet `start_locations` does not report the two start
positions: the search window is not cleared after the skip, so the stale
key bytes produce a bogus third match at offset 2, whose garbage length
field (`0xAA`, long form, 42 payload bytes) runs off the end of the
source and aborts the whole locate with an I/O error. -/
theorem start_locations_selfoverlap_cex :
    ((List.range 34).filter (fun p =>
        decide (occAt (List.replicate 16 170 ++ [0] ++ (List.replicate 16 170 ++ [0]))
          (List.replicate 16 170) p)) = [0, 17])
    ∧ read_ber ⟨List.replicate 16 170 ++ [0] ++ (List.replicate 16 170 ++ [0]), 16⟩
        = .ok (0, ⟨List.replicate 16 170 ++ [0] ++ (List.replicate 16 170 ++ [0]), 17⟩)
    ∧ 17 + 0 ≤ 17
    ∧ read_ber ⟨List.replicate 16 170 ++ [0] ++ (List.replicate 16 170 ++ [0]), 33⟩
        = .ok (0, ⟨List.replicate 16 170 ++ [0] ++ (List.replicate 16 170 ++ [0]), 34⟩)
    ∧ UniversalSet.start_locations (List.replicate 16 170)
        ⟨List.replicate 16 170 ++ [0] ++ (List.replicate 16 170 ++ [0]), 0⟩
      = .err .ioError := by
  refine ⟨by decide, by decide, by decide, by decide, by decide⟩

/-- Witness for the C2 amended theorem on the repository's own unit-test
buffer: the test key occurs exactly at offsets 1 and 25, has no nonempty
border, both length fields decode (4 at offset 17, 7 at offset 41), the
first value span `[18, 22)` ends before 25, and `start_locations` returns
`[1, 25]`. -/
theorem start_locations_two_keys_witness :
    testKey.length = 16
    ∧ (∀ m, m < 16 → 0 < m → testKey.drop m ≠ testKey.take (16 - m))
    ∧ occAt testBuf testKey 1
    ∧ occAt testBuf testKey 25
    ∧ 1 < 25
    ∧ (∀ p, p < testBuf.length → occAt testBuf testKey p → p = 1 ∨ p = 25)
    ∧ read_ber ⟨testBuf, 1 + 16⟩ = .ok (4, ⟨testBuf, 18⟩)
    ∧ 18 + 4 ≤ 25
    ∧ read_ber ⟨testBuf, 25 + 16⟩ = .ok (7, ⟨testBuf, 42⟩)
    ∧ UniversalSet.start_locations testKey ⟨testBuf, 0⟩ = .ok [1, 25] :=
  ⟨by decide, by decide, by decide, by decide, by decide, by decide, by decide,
    by decide, by decide,
    start_locations_two_keys testKey testBuf 1 25 18 4 42 7
      (by decide) (by decide) (by decide) (by decide) (by decide) (by decide)
      (by decide) (by decide) (by decide) (by decide) (by decide)⟩

end KlvModel
